import Mathlib

/-!
Shallow embedding of the vibration-plotter pipeline
(src/data_loader.py, src/signal_processor.py, src/plotter.py).

Numbers are modelled exactly by the rationals ℚ.  A pandas DataFrame as
used by this program is a time column (the column named "Channel name")
together with the remaining per-row data, which the stitcher never
inspects; it is modelled by an opaque row payload of type α.
-/

/-- A loaded segment table: the time column ("Channel name") and, for each
row, the values of the remaining (axis) columns, kept opaque. -/
structure DataFrame (α : Type) where
  time : List ℚ
  rows : List α

/-- pandas `Series.max` / `np.max` on a column, as used at
src/data_loader.py line 60.  On an empty column pandas yields NaN, which
has no rational counterpart; the junk value 0 stands in for it and is
never reached under the non-empty hypotheses used below. -/
def seriesMax : List ℚ → ℚ
  | [] => 0
  | x :: xs => xs.foldl max x

/-- Model of `np.min` / Python `min` on a list of values.  Python raises on an
empty input; the junk value 0 stands in for that case and is excluded by
hypothesis wherever the function is used. -/
def seriesMin : List ℚ → ℚ
  | [] => 0
  | x :: xs => xs.foldl min x

/-- The loop of load_and_concatenate_csvs (src/data_loader.py lines
45-62): `i` is the enumerate index, `cumulative_time` the running offset.
Only the time column is modified (line 57); the offset is added for every
file except the first (`if i > 0`), and after each file the offset becomes
the maximum of the just-offset time column (line 60). -/
def loadLoop {α : Type} : List (DataFrame α) → ℚ → ℕ → List (DataFrame α)
  | [], _, _ => []
  | df :: rest, cumulative_time, i =>
    let df' := if 0 < i then
        { df with time := df.time.map (fun t => t + cumulative_time) }
      else df
    df' :: loadLoop rest (seriesMax df'.time) (i + 1)

/-- The same loop restricted to the time columns only. -/
def timesLoop : List (List ℚ) → ℚ → ℕ → List (List ℚ)
  | [], _, _ => []
  | t :: rest, cumulative_time, i =>
    let t' := if 0 < i then t.map (fun x => x + cumulative_time) else t
    t' :: timesLoop rest (seriesMax t') (i + 1)

/-- Model of `pd.concat(dataframes, ignore_index=True)` (src/data_loader.py line
65): rows are appended in list order and the index is reset. -/
def concatFrames {α : Type} (dfs : List (DataFrame α)) : DataFrame α :=
  ⟨(dfs.map DataFrame.time).flatten, (dfs.map DataFrame.rows).flatten⟩

/-- load_and_concatenate_csvs (src/data_loader.py lines 30-70): an empty
file list yields an empty frame (line 43); otherwise the loop offsets the
time columns and the frames are concatenated. -/
def load_and_concatenate_csvs {α : Type} (csv_files : List (DataFrame α)) :
    DataFrame α :=
  if csv_files.isEmpty then ⟨[], []⟩
  else concatFrames (loadLoop csv_files 0 0)

/- ------------------------------------------------------------------ -/
/- src/signal_processor.py                                             -/
/- ------------------------------------------------------------------ -/

/-- Model of `np.diff`: successive differences a[i+1] - a[i]. -/
def npDiff (a : List ℚ) : List ℚ := List.zipWith (fun x y => x - y) a.tail a

/-- Model of `np.mean`.  On an empty array numpy emits a RuntimeWarning and yields
NaN, which has no rational counterpart; the NaN outcome is modelled by
`none`. -/
def npMean (a : List ℚ) : Option ℚ :=
  if a.isEmpty then none else some (a.sum / a.length)

/-- calculate_sampling_rate (src/signal_processor.py lines 14-39):
fs = 1 / mean(diff(time_data)).  The function performs no input
validation: with fewer than 2 samples np.diff is empty, np.mean yields
NaN, and the NaN (`none`) propagates into the returned rate — no
exception is raised. -/
def calculate_sampling_rate (time_data : List ℚ) : Option ℚ :=
  (npMean (npDiff time_data)).map (fun avg_dt => 1 / avg_dt)

/-- The FFT_CONFIG dictionary fields used by the signal processor
(src/config.py lines 34-40). -/
structure FFTConfig where
  nperseg : ℤ
  overlap : ℤ
  max_frequency : Option ℚ

/-- The per-axis entry of the result dictionary of
compute_frequency_spectrum, together with the clamped Welch parameters
passed to scipy.signal.welch for that axis.  `magnitudeSq` records the
radicand psd·fs/2 of line 108's magnitude = sqrt(psd·fs/2); the magnitude
itself is its real square root. -/
structure AxisSpectrum where
  nperseg : ℤ
  noverlap : ℤ
  frequencies : List ℚ
  magnitudeSq : List ℚ

/-- The result dictionary of compute_frequency_spectrum
(src/signal_processor.py lines 77-80 and 111-114). -/
structure Spectrum where
  sampling_rate : ℚ
  nyquist_freq : ℚ
  axes : List AxisSpectrum

/-- The one-sided frequency grid returned by scipy.signal.welch with
nfft = nperseg: the nperseg/2 + 1 bins k·fs/nperseg for
k = 0 .. nperseg/2. -/
def welchFreqs (fs : ℚ) (nperseg : ℤ) : List ℚ :=
  (List.range (nperseg.toNat / 2 + 1)).map
    (fun k : ℕ => (k : ℚ) * fs / (nperseg : ℚ))

/-- compute_frequency_spectrum (src/signal_processor.py lines 42-122).
`signals` are the df[axis] columns for the configured axis_columns, in
order.  The call to scipy.signal.welch is modelled by its documented
one-sided frequency grid together with `welchPsd`, a parameter standing
for the library's PSD numerics (signal, fs, nperseg, noverlap ↦ psd);
line 87 clamps nperseg to the signal length and line 88 clamps the
overlap to nperseg - 1, per axis.  A NaN sampling rate (fewer than 2 time
samples) poisons every downstream quantity; that run is modelled by
`none`. -/
def compute_frequency_spectrum (welchPsd : List ℚ → ℚ → ℤ → ℤ → List ℚ)
    (time_data : List ℚ) (signals : List (List ℚ))
    (fft_config : FFTConfig) : Option Spectrum :=
  (calculate_sampling_rate time_data).map (fun fs =>
    { sampling_rate := fs
      nyquist_freq := fs / 2
      axes := signals.map (fun signal_data =>
        let nperseg := min fft_config.nperseg (signal_data.length : ℤ)
        let overlap := min fft_config.overlap (nperseg - 1)
        let psd := welchPsd signal_data fs nperseg overlap
        { nperseg := nperseg
          noverlap := overlap
          frequencies := welchFreqs fs nperseg
          magnitudeSq := psd.map (fun p => p * fs / 2) }) })

/-- A trivial instance of the welch PSD contract: the all-zero PSD of the
documented length.  Used only to instantiate witnesses. -/
def welchPsd0 : List ℚ → ℚ → ℤ → ℤ → List ℚ :=
  fun _ _ nperseg _ => List.replicate (nperseg.toNat / 2 + 1) 0

/-- get_frequency_display_range (src/signal_processor.py lines 160-185):
the minimum Nyquist frequency across all conditions, further capped by
fft_config.max_frequency when that is not None.  Python's min() raises on
an empty dict; the junk value of seriesMin stands in for that case and is
excluded by hypothesis. -/
def get_frequency_display_range (all_spectra : List Spectrum)
    (fft_config : FFTConfig) : ℚ :=
  let min_nyquist := seriesMin (all_spectra.map Spectrum.nyquist_freq)
  match fft_config.max_frequency with
  | some m => min m min_nyquist
  | none => min_nyquist

/- ------------------------------------------------------------------ -/
/- src/plotter.py                                                      -/
/- ------------------------------------------------------------------ -/

/-- The per-axis body of calculate_global_ranges (src/plotter.py lines
26-40).  `columns` are the conditions' value columns for one axis; the
loop over axes applies this computation independently per axis.  np.min
and np.max raise on an empty input; the junk values of seriesMin and
seriesMax stand in for that case and are excluded by hypothesis. -/
def calculate_global_ranges_axis (columns : List (List ℚ)) : ℚ × ℚ :=
  let all_values := columns.flatten
  let min_val := seriesMin all_values
  let max_val := seriesMax all_values
  let padding := (max_val - min_val) * 0.05
  (min_val - padding, max_val + padding)

/-- The magnitude values kept by the boolean mask
frequencies <= max_frequency (src/plotter.py lines 70-76), across all
conditions' (frequencies, magnitude) pairs for one axis. -/
def filteredMagnitudes (spectra : List (List ℚ × List ℚ))
    (max_frequency : ℚ) : List ℚ :=
  (spectra.map (fun sp =>
    ((sp.1.zip sp.2).filter (fun p => p.1 ≤ max_frequency)).map Prod.snd)).flatten

/-- The per-axis body of calculate_global_frequency_ranges
(src/plotter.py lines 66-85): the minimum is pinned to 0 (line 79,
magnitude cannot be negative) and the maximum is the largest masked
magnitude plus 5% padding. -/
def calculate_global_frequency_ranges_axis
    (spectra : List (List ℚ × List ℚ)) (max_frequency : ℚ) : ℚ × ℚ :=
  let all_magnitudes := filteredMagnitudes spectra max_frequency
  let min_mag : ℚ := 0
  let max_mag := seriesMax all_magnitudes
  let padding := max_mag * 0.05
  (min_mag, max_mag + padding)

/- ------------------------------------------------------------------ -/
/- src/data_loader.py: load_all_conditions and its failure behaviour   -/
/- ------------------------------------------------------------------ -/

/-- Indexing df["Channel name"] on a freshly read CSV, represented as a mapping
from column names to columns: a file without the time column raises
KeyError (src/data_loader.py lines 57 and 60), modelled Except.error. -/
def getTimeColumn (file : List (String × List ℚ)) : Except String (List ℚ) :=
  match file.lookup ("Channel name") with
  | some col => Except.ok col
  | none => Except.error ("KeyError: Channel name")

/-- The loop of load_and_concatenate_csvs lifted to raw files, tracking
the time column, which alone determines the control flow: each file's
time column is fetched (KeyError when absent, even for the first file,
because line 60 indexes it), offset exactly as in loadLoop, and the
columns are returned in file order. -/
def loadRawLoop :
    List (List (String × List ℚ)) → ℚ → ℕ → Except String (List (List ℚ))
  | [], _, _ => Except.ok []
  | file :: rest, cumulative_time, i => do
    let t ← getTimeColumn file
    let t' := if 0 < i then t.map (fun x => x + cumulative_time) else t
    let ts ← loadRawLoop rest (seriesMax t') (i + 1)
    Except.ok (t' :: ts)

/-- load_and_concatenate_csvs at the raw-file level: the stitched time
column of the returned frame, or the exception raised.  An empty file
list yields the empty frame (src/data_loader.py line 43). -/
def load_and_concatenate_raw
    (csv_files : List (List (String × List ℚ))) : Except String (List ℚ) :=
  if csv_files.isEmpty then Except.ok []
  else (loadRawLoop csv_files 0 0).map List.flatten

/-- load_all_conditions (src/data_loader.py lines 73-102).  A condition
is (name, none) when its directory does not exist — skipped with a
warning (line 89) — and (name, some files) otherwise.  The load of an
existing condition is not surrounded by any exception handler, so an
error propagates and aborts the whole run.  A successfully loaded empty
frame is silently dropped (line 99); a non-empty one is recorded under
the condition's name. -/
def load_all_conditions :
    List (String × Option (List (List (String × List ℚ)))) →
      Except String (List (String × List ℚ))
  | [] => Except.ok []
  | (_, none) :: rest => load_all_conditions rest
  | (name, some files) :: rest => do
    let df ← load_and_concatenate_raw files
    let acc ← load_all_conditions rest
    Except.ok (if df.isEmpty then acc else (name, df) :: acc)

/-- A segment file with the expected schema. -/
def goodFile : List (String × List ℚ) :=
  [(("Channel name"), [0, 1]), (("X"), [5, 6])]

/-- A segment file lacking the "Channel name" time column. -/
def badFile : List (String × List ℚ) :=
  [(("X"), [5, 6])]

/- ------------------------------------------------------------------ -/
/- Helper lemmas about list maxima and the stitching loop              -/
/- ------------------------------------------------------------------ -/

theorem le_foldl_max (xs : List ℚ) (a : ℚ) : a ≤ xs.foldl max a := by
  induction xs generalizing a with
  | nil => exact le_refl a
  | cons x xs ih => exact le_trans (le_max_left a x) (ih (max a x))

theorem mem_le_foldl_max {x : ℚ} {xs : List ℚ} (hx : x ∈ xs) :
    ∀ a : ℚ, x ≤ xs.foldl max a := by
  induction xs with
  | nil => cases hx
  | cons y ys ih =>
    intro a
    rcases List.mem_cons.mp hx with h | h
    · subst h
      exact le_trans (le_max_right a x) (le_foldl_max ys (max a x))
    · exact ih h (max a y)

theorem le_seriesMax {x : ℚ} {l : List ℚ} (hx : x ∈ l) : x ≤ seriesMax l := by
  cases l with
  | nil => cases hx
  | cons y ys =>
    rcases List.mem_cons.mp hx with h | h
    · subst h; exact le_foldl_max ys x
    · exact mem_le_foldl_max h y

theorem loadLoop_map_time {α : Type} (fs : List (DataFrame α)) (c : ℚ) (i : ℕ) :
    (loadLoop fs c i).map DataFrame.time = timesLoop (fs.map DataFrame.time) c i := by
  induction fs generalizing c i with
  | nil => rfl
  | cons f rest ih =>
    simp only [loadLoop, timesLoop, List.map_cons]
    by_cases hi : 0 < i
    · simp only [if_pos hi]
      exact congrArg _ (ih _ _)
    · simp only [if_neg hi]
      exact congrArg _ (ih _ _)

theorem loadLoop_map_rows {α : Type} (fs : List (DataFrame α)) (c : ℚ) (i : ℕ) :
    (loadLoop fs c i).map DataFrame.rows = fs.map DataFrame.rows := by
  induction fs generalizing c i with
  | nil => rfl
  | cons f rest ih =>
    simp only [loadLoop, List.map_cons]
    by_cases hi : 0 < i
    · simp only [if_pos hi]
      exact congrArg _ (ih _ _)
    · simp only [if_neg hi]
      exact congrArg _ (ih _ _)

theorem load_time {α : Type} (fs : List (DataFrame α)) :
    (load_and_concatenate_csvs fs).time
      = (timesLoop (fs.map DataFrame.time) 0 0).flatten := by
  cases fs with
  | nil => rfl
  | cons f rest =>
    show (concatFrames (loadLoop (f :: rest) 0 0)).time = _
    simp only [concatFrames]
    rw [loadLoop_map_time]

theorem timesLoop_sorted_ge (ts : List (List ℚ)) :
    ∀ (c : ℚ) (i : ℕ), 0 < i →
      (∀ t ∈ ts, t ≠ [] ∧ List.Sorted (· ≤ ·) t ∧ ∀ x ∈ t, 0 ≤ x) →
      List.Sorted (· ≤ ·) (timesLoop ts c i).flatten ∧
        ∀ x ∈ (timesLoop ts c i).flatten, c ≤ x := by
  induction ts with
  | nil =>
    intro c i _ _
    refine ⟨List.sorted_nil, ?_⟩
    intro x hx
    simp [timesLoop] at hx
  | cons t rest ih =>
    intro c i hi h
    obtain ⟨hne, hsort, hpos⟩ := h t (List.mem_cons_self t rest)
    have hrest := fun u hu => h u (List.mem_cons_of_mem _ hu)
    simp only [timesLoop, if_pos hi, List.flatten_cons]
    have hsort' : List.Sorted (· ≤ ·) (t.map (fun x => x + c)) :=
      (List.pairwise_map).mpr (hsort.imp (fun hab => add_le_add_right hab c))
    have hmem' : ∀ y ∈ t.map (fun x => x + c), c ≤ y := by
      intro y hy
      rcases List.mem_map.mp hy with ⟨x, hx, rfl⟩
      have := hpos x hx
      linarith
    have hmax : ∀ y ∈ t.map (fun x => x + c), y ≤ seriesMax (t.map (fun x => x + c)) :=
      fun y hy => le_seriesMax hy
    have hc_le : c ≤ seriesMax (t.map (fun x => x + c)) := by
      cases t with
      | nil => exact absurd rfl hne
      | cons z zs =>
        have hz : z + c ∈ (z :: zs).map (fun x => x + c) := by simp
        exact le_trans (hmem' _ hz) (le_seriesMax hz)
    obtain ⟨ihs, ihge⟩ := ih (seriesMax (t.map (fun x => x + c))) (i + 1)
      (Nat.succ_pos i) hrest
    constructor
    · refine (List.pairwise_append).mpr ⟨hsort', ihs, ?_⟩
      intro a ha b hb
      exact le_trans (hmax a ha) (ihge b hb)
    · intro x hx
      rcases List.mem_append.mp hx with h1 | h1
      · exact hmem' x h1
      · exact le_trans hc_le (ihge x h1)

/-- C1: stitching two segment tables whose time columns are both
[0, 0.1, 0.2] yields one concatenated series of 6 rows whose time column
is exactly [0, 0.1, 0.2, 0.2, 0.3, 0.4]: the first segment is unchanged
and the second is offset by the maximum time value of the previously
processed segment, with rows concatenated in file order. -/
theorem stitched_time_of_two_segments {α : Type} (r1 r2 : List α) :
    (load_and_concatenate_csvs
        [⟨[0, 0.1, 0.2], r1⟩, ⟨[0, 0.1, 0.2], r2⟩]).time
      = [0, 0.1, 0.2, 0.2, 0.3, 0.4] := by
  rw [load_time]
  norm_num [timesLoop, seriesMax, max_def]

theorem stitched_time_of_two_segments_witness :
    (load_and_concatenate_csvs
        [(⟨[0, 0.1, 0.2], []⟩ : DataFrame Unit), ⟨[0, 0.1, 0.2], []⟩]).time
      = [0, 0.1, 0.2, 0.2, 0.3, 0.4] :=
  stitched_time_of_two_segments [] []

/-- C2: for every non-empty list of segment tables whose time columns are
non-decreasing, non-empty and non-negative, the time column of the frame
returned by load_and_concatenate_csvs is non-decreasing across the whole
concatenated series. -/
theorem stitched_time_monotone {α : Type} (fs : List (DataFrame α))
    (hne : fs ≠ [])
    (hseg : ∀ f ∈ fs, f.time ≠ [] ∧ List.Sorted (· ≤ ·) f.time ∧
      ∀ x ∈ f.time, 0 ≤ x) :
    List.Sorted (· ≤ ·) (load_and_concatenate_csvs fs).time := by
  cases fs with
  | nil => exact absurd rfl hne
  | cons f rest =>
    rw [load_time]
    obtain ⟨hfne, hfsort, hfpos⟩ := hseg f (List.mem_cons_self f rest)
    simp only [List.map_cons, timesLoop, Nat.lt_irrefl, if_neg, List.flatten_cons,
      not_false_eq_true]
    have hrest : ∀ t ∈ rest.map DataFrame.time, t ≠ [] ∧
        List.Sorted (· ≤ ·) t ∧ ∀ x ∈ t, 0 ≤ x := by
      intro t ht
      rcases List.mem_map.mp ht with ⟨g, hg, rfl⟩
      exact hseg g (List.mem_cons_of_mem _ hg)
    obtain ⟨hs, hge⟩ := timesLoop_sorted_ge (rest.map DataFrame.time)
      (seriesMax f.time) 1 Nat.one_pos hrest
    refine (List.pairwise_append).mpr ⟨hfsort, hs, ?_⟩
    intro a ha b hb
    exact le_trans (le_seriesMax ha) (hge b hb)

theorem stitched_time_monotone_witness :
    List.Sorted (· ≤ ·)
      (load_and_concatenate_csvs
        [(⟨[0, 0.1], [0, 1]⟩ : DataFrame ℚ), ⟨[0, 0.2], [2, 3]⟩]).time := by
  refine stitched_time_monotone _ (by simp) ?_
  intro f hf
  rcases List.mem_cons.mp hf with h | h
  · subst h
    refine ⟨by simp, ?_, ?_⟩
    · simp only [List.sorted_cons, List.mem_singleton, List.sorted_singleton]
      norm_num
    · intro x hx
      rcases List.mem_cons.mp hx with h1 | h1
      · norm_num [h1]
      · simp only [List.mem_singleton] at h1
        norm_num [h1]
  · simp only [List.mem_singleton] at h
    subst h
    refine ⟨by simp, ?_, ?_⟩
    · simp only [List.sorted_cons, List.mem_singleton, List.sorted_singleton]
      norm_num
    · intro x hx
      rcases List.mem_cons.mp hx with h1 | h1
      · norm_num [h1]
      · simp only [List.mem_singleton] at h1
        norm_num [h1]

/-- C8: stitching a single segment is the identity on the time column:
the running offset stays 0 and no offset is applied to the first
segment. -/
theorem stitched_single_segment_time_id {α : Type} (f : DataFrame α) :
    (load_and_concatenate_csvs [f]).time = f.time := by
  rw [load_time]
  simp [timesLoop]

theorem stitched_single_segment_time_id_witness :
    (load_and_concatenate_csvs [(⟨[0, 0.1, 0.2], [5, 6, 7]⟩ : DataFrame ℚ)]).time
      = [0, 0.1, 0.2] :=
  stitched_single_segment_time_id ⟨[0, 0.1, 0.2], [5, 6, 7]⟩

/-- C10: the stitcher modifies only the time column: for every list of
segment tables, the non-time row data of the frame returned by
load_and_concatenate_csvs is exactly the concatenation, in file order, of
the input segments' row data, unchanged. -/
theorem stitched_rows_unchanged {α : Type} (fs : List (DataFrame α)) :
    (load_and_concatenate_csvs fs).rows = (fs.map DataFrame.rows).flatten := by
  cases fs with
  | nil => rfl
  | cons f rest =>
    show (concatFrames (loadLoop (f :: rest) 0 0)).rows = _
    simp only [concatFrames]
    rw [loadLoop_map_rows]

theorem stitched_rows_unchanged_witness :
    (load_and_concatenate_csvs
        [(⟨[0, 0.1], [10, 11]⟩ : DataFrame ℚ), ⟨[0, 0.1], [12, 13]⟩]).rows
      = [10, 11, 12, 13] := by
  rw [stitched_rows_unchanged]
  simp

/- ------------------------------------------------------------------ -/
/- Helper lemmas about list minima                                     -/
/- ------------------------------------------------------------------ -/

theorem foldl_min_le (xs : List ℚ) (a : ℚ) : xs.foldl min a ≤ a := by
  induction xs generalizing a with
  | nil => exact le_refl a
  | cons x xs ih => exact le_trans (ih (min a x)) (min_le_left a x)

theorem foldl_min_le_mem {x : ℚ} {xs : List ℚ} (hx : x ∈ xs) :
    ∀ a : ℚ, xs.foldl min a ≤ x := by
  induction xs with
  | nil => cases hx
  | cons y ys ih =>
    intro a
    rcases List.mem_cons.mp hx with h | h
    · subst h
      exact le_trans (foldl_min_le ys (min a x)) (min_le_right a x)
    · exact ih h (min a y)

theorem seriesMin_le {x : ℚ} {l : List ℚ} (hx : x ∈ l) : seriesMin l ≤ x := by
  cases l with
  | nil => cases hx
  | cons y ys =>
    rcases List.mem_cons.mp hx with h | h
    · subst h; exact foldl_min_le ys x
    · exact foldl_min_le_mem h y

theorem foldl_min_mem (xs : List ℚ) (a : ℚ) : xs.foldl min a ∈ a :: xs := by
  induction xs generalizing a with
  | nil => exact List.mem_singleton.mpr rfl
  | cons x xs ih =>
    have h := ih (min a x)
    rcases List.mem_cons.mp h with h1 | h1
    · rcases min_choice a x with h2 | h2
      · exact List.mem_cons.mpr (Or.inl (h1.trans h2))
      · refine List.mem_cons.mpr (Or.inr ?_)
        exact List.mem_cons.mpr (Or.inl (h1.trans h2))
    · exact List.mem_cons.mpr (Or.inr (List.mem_cons.mpr (Or.inr h1)))

theorem seriesMin_mem {l : List ℚ} (h : l ≠ []) : seriesMin l ∈ l := by
  cases l with
  | nil => exact absurd rfl h
  | cons y ys => exact foldl_min_mem ys y

theorem foldl_max_const {xs : List ℚ} {c : ℚ} (h : ∀ v ∈ xs, v = c) :
    xs.foldl max c = c := by
  induction xs with
  | nil => rfl
  | cons x xs ih =>
    have hx : x = c := h x (List.mem_cons_self x xs)
    have : ∀ v ∈ xs, v = c := fun v hv => h v (List.mem_cons_of_mem _ hv)
    simp only [List.foldl_cons, hx, max_self]
    exact ih this

theorem foldl_min_const {xs : List ℚ} {c : ℚ} (h : ∀ v ∈ xs, v = c) :
    xs.foldl min c = c := by
  induction xs with
  | nil => rfl
  | cons x xs ih =>
    have hx : x = c := h x (List.mem_cons_self x xs)
    have : ∀ v ∈ xs, v = c := fun v hv => h v (List.mem_cons_of_mem _ hv)
    simp only [List.foldl_cons, hx, min_self]
    exact ih this

theorem seriesMax_const {l : List ℚ} {c : ℚ} (hne : l ≠ [])
    (h : ∀ v ∈ l, v = c) : seriesMax l = c := by
  cases l with
  | nil => exact absurd rfl hne
  | cons y ys =>
    have hy : y = c := h y (List.mem_cons_self y ys)
    show ys.foldl max y = c
    rw [hy]
    exact foldl_max_const (fun v hv => h v (List.mem_cons_of_mem _ hv))

theorem seriesMin_const {l : List ℚ} {c : ℚ} (hne : l ≠ [])
    (h : ∀ v ∈ l, v = c) : seriesMin l = c := by
  cases l with
  | nil => exact absurd rfl hne
  | cons y ys =>
    have hy : y = c := h y (List.mem_cons_self y ys)
    show ys.foldl min y = c
    rw [hy]
    exact foldl_min_const (fun v hv => h v (List.mem_cons_of_mem _ hv))

/- ------------------------------------------------------------------ -/
/- C3: sampling-rate estimation                                        -/
/- ------------------------------------------------------------------ -/

/-- C3: the claim requires calculate_sampling_rate to reject inputs with
fewer than 2 time samples with an explicit error, but the code contains
no such check: at a single sample (and at zero samples) np.diff is empty,
np.mean silently yields NaN (modelled none) and the NaN sampling rate is
returned — no exception is raised.  For at least 2 samples the function
does return 1 / mean(successive differences), e.g. 2 Hz for times
[0, 0.5, 1]. -/
theorem sampling_rate_not_rejected_on_short_input :
    calculate_sampling_rate [(0 : ℚ)] = none ∧
    calculate_sampling_rate ([] : List ℚ) = none ∧
    calculate_sampling_rate [(0 : ℚ), 0.5, 1] = some 2 := by
  refine ⟨rfl, rfl, ?_⟩
  norm_num [calculate_sampling_rate, npMean, npDiff]

/- ------------------------------------------------------------------ -/
/- C4: display-frequency cutoff                                        -/
/- ------------------------------------------------------------------ -/

/-- C4: for every non-empty set of condition spectra, the display cutoff
returned by get_frequency_display_range is a lower bound of every
condition's Nyquist frequency, never exceeds a configured cap, is
attained (it equals the cap or one of the Nyquist frequencies), and with
no cap it equals the minimum Nyquist frequency; on Nyquist frequencies
{500, 400, 600} it returns exactly 400 with no cap and 300 with a cap of
300. -/
theorem frequency_display_range_spec (all_spectra : List Spectrum)
    (cfg : FFTConfig) (hne : all_spectra ≠ []) :
    (∀ s ∈ all_spectra,
      get_frequency_display_range all_spectra cfg ≤ s.nyquist_freq) ∧
    (∀ c, cfg.max_frequency = some c →
      get_frequency_display_range all_spectra cfg ≤ c) ∧
    ((∃ s ∈ all_spectra,
        get_frequency_display_range all_spectra cfg = s.nyquist_freq) ∨
      (∃ c, cfg.max_frequency = some c ∧
        get_frequency_display_range all_spectra cfg = c)) ∧
    (cfg.max_frequency = none →
      ∃ s ∈ all_spectra,
        get_frequency_display_range all_spectra cfg = s.nyquist_freq) ∧
    get_frequency_display_range
        [⟨1000, 500, []⟩, ⟨800, 400, []⟩, ⟨1200, 600, []⟩]
        ⟨1024, 512, none⟩ = 400 ∧
    get_frequency_display_range
        [⟨1000, 500, []⟩, ⟨800, 400, []⟩, ⟨1200, 600, []⟩]
        ⟨1024, 512, some 300⟩ = 300 := by
  have hmem : seriesMin (all_spectra.map Spectrum.nyquist_freq)
      ∈ all_spectra.map Spectrum.nyquist_freq :=
    seriesMin_mem (by simpa using hne)
  obtain ⟨s₀, hs₀, hs₀eq⟩ := List.mem_map.mp hmem
  have hlow : ∀ s ∈ all_spectra,
      seriesMin (all_spectra.map Spectrum.nyquist_freq) ≤ s.nyquist_freq :=
    fun s hs => seriesMin_le (List.mem_map.mpr ⟨s, hs, rfl⟩)
  refine ⟨?_, ?_, ?_, ?_, ?_, ?_⟩
  · intro s hs
    cases hc : cfg.max_frequency with
    | none =>
      simp only [get_frequency_display_range, hc]
      exact hlow s hs
    | some m =>
      simp only [get_frequency_display_range, hc]
      exact le_trans (min_le_right _ _) (hlow s hs)
  · intro c hc
    simp only [get_frequency_display_range, hc]
    exact min_le_left _ _
  · cases hc : cfg.max_frequency with
    | none =>
      refine Or.inl ⟨s₀, hs₀, ?_⟩
      simp only [get_frequency_display_range, hc]
      exact hs₀eq.symm
    | some m =>
      rcases min_choice m (seriesMin (all_spectra.map Spectrum.nyquist_freq))
        with h | h
      · refine Or.inr ⟨m, rfl, ?_⟩
        simp only [get_frequency_display_range, hc]
        exact h
      · refine Or.inl ⟨s₀, hs₀, ?_⟩
        simp only [get_frequency_display_range, hc]
        exact h.trans hs₀eq.symm
  · intro hc
    refine ⟨s₀, hs₀, ?_⟩
    simp only [get_frequency_display_range, hc]
    exact hs₀eq.symm
  · norm_num [get_frequency_display_range, seriesMin, min_def]
  · norm_num [get_frequency_display_range, seriesMin, min_def]

theorem frequency_display_range_spec_witness :
    get_frequency_display_range
        [⟨1000, 500, []⟩, ⟨800, 400, []⟩, ⟨1200, 600, []⟩]
        ⟨1024, 512, none⟩ ≤ (⟨800, 400, []⟩ : Spectrum).nyquist_freq :=
  (frequency_display_range_spec
    [⟨1000, 500, []⟩, ⟨800, 400, []⟩, ⟨1200, 600, []⟩]
    ⟨1024, 512, none⟩ (by simp)).1 ⟨800, 400, []⟩
    (List.mem_cons_of_mem _ (List.mem_cons_self _ _))

/- ------------------------------------------------------------------ -/
/- C5 and C9: compute_frequency_spectrum                               -/
/- ------------------------------------------------------------------ -/

theorem compute_spectrum_example :
    compute_frequency_spectrum welchPsd0 [0, 0.5, 1] [[1, 2, 3]]
        ⟨4, 2, none⟩
      = some ⟨2, 1, [⟨3, 2, welchFreqs 2 3, [0, 0]⟩]⟩ := by
  have h1 : (min (4 : ℤ) 3) = 3 := by norm_num
  have h2 : ((3 : ℤ).toNat / 2 + 1) = 2 := rfl
  norm_num [compute_frequency_spectrum, calculate_sampling_rate, npMean,
    npDiff, welchPsd0, h1, h2, List.replicate]

/-- C5: for every spectrum produced by compute_frequency_spectrum, every
axis entry carries the effective Welch segment length
min(configured nperseg, signal length) and the effective overlap
min(configured overlap, effective segment length - 1); the clamping is
applied independently per axis from that axis's own signal length, keeps
the parameters within a valid configuration, and no error is surfaced (a
spectrum is still returned). -/
theorem welch_parameters_clamped (welchPsd : List ℚ → ℚ → ℤ → ℤ → List ℚ)
    (time_data : List ℚ) (signals : List (List ℚ)) (cfg : FFTConfig)
    (s : Spectrum)
    (hs : compute_frequency_spectrum welchPsd time_data signals cfg = some s) :
    s.axes.length = signals.length ∧
    ∀ (i : ℕ) (hi : i < signals.length) (hi' : i < s.axes.length),
      (s.axes.get ⟨i, hi'⟩).nperseg
          = min cfg.nperseg ((signals.get ⟨i, hi⟩).length : ℤ) ∧
      (s.axes.get ⟨i, hi'⟩).noverlap
          = min cfg.overlap ((s.axes.get ⟨i, hi'⟩).nperseg - 1) ∧
      (s.axes.get ⟨i, hi'⟩).nperseg ≤ ((signals.get ⟨i, hi⟩).length : ℤ) ∧
      (s.axes.get ⟨i, hi'⟩).noverlap ≤ (s.axes.get ⟨i, hi'⟩).nperseg - 1 := by
  rcases Option.map_eq_some'.mp hs with ⟨fs, hfs, hrec⟩
  cases hrec
  refine ⟨List.length_map _ _, ?_⟩
  intro i hi hi'
  have hget : ∀ (h : i < (List.map _ signals).length),
      (List.map (fun signal_data =>
        let nperseg := min cfg.nperseg (signal_data.length : ℤ)
        let overlap := min cfg.overlap (nperseg - 1)
        let psd := welchPsd signal_data fs nperseg overlap
        (⟨nperseg, overlap, welchFreqs fs nperseg,
          psd.map (fun p => p * fs / 2)⟩ : AxisSpectrum)) signals).get ⟨i, h⟩
        = (⟨min cfg.nperseg ((signals.get ⟨i, hi⟩).length : ℤ),
            min cfg.overlap (min cfg.nperseg ((signals.get ⟨i, hi⟩).length : ℤ) - 1),
            welchFreqs fs (min cfg.nperseg ((signals.get ⟨i, hi⟩).length : ℤ)),
            (welchPsd (signals.get ⟨i, hi⟩) fs
                (min cfg.nperseg ((signals.get ⟨i, hi⟩).length : ℤ))
                (min cfg.overlap
                  (min cfg.nperseg ((signals.get ⟨i, hi⟩).length : ℤ) - 1))).map
              (fun p => p * fs / 2)⟩ : AxisSpectrum) := by
    intro h
    rw [List.get_map]
  refine ⟨?_, ?_, ?_, ?_⟩
  · rw [hget hi']
  · rw [hget hi']
  · rw [hget hi']
    exact min_le_right _ _
  · rw [hget hi']
    exact min_le_right _ _

theorem welch_parameters_clamped_witness :
    (⟨2, 1, [⟨3, 2, welchFreqs 2 3, [0, 0]⟩]⟩ : Spectrum).axes.length
      = [[(1 : ℚ), 2, 3]].length :=
  (welch_parameters_clamped welchPsd0 [0, 0.5, 1] [[1, 2, 3]] ⟨4, 2, none⟩
    _ compute_spectrum_example).1

theorem sampling_rate_pos {t : List ℚ} {fs : ℚ}
    (h : calculate_sampling_rate t = some fs) (hsum : 0 < (npDiff t).sum) :
    0 < fs := by
  rcases Option.map_eq_some'.mp h with ⟨m, hm, hfs⟩
  unfold npMean at hm
  by_cases he : (npDiff t).isEmpty
  · simp [he] at hm
  · rw [if_neg he] at hm
    injection hm with hm
    have hlen : 0 < ((npDiff t).length : ℚ) := by
      have : (npDiff t) ≠ [] := by
        simpa [List.isEmpty_iff] using he
      exact_mod_cast Nat.cast_pos.mpr (List.length_pos.mpr this)
    subst hfs
    rw [← hm]
    exact one_div_pos.mpr (div_pos hsum hlen)

theorem welchFreqs_length (fs : ℚ) (n : ℤ) :
    (welchFreqs fs n).length = n.toNat / 2 + 1 := by
  rw [welchFreqs, List.length_map, List.length_range]

theorem welchFreqs_sorted (fs : ℚ) (n : ℤ) (hfs : 0 ≤ fs) (hn : 0 < n) :
    List.Sorted (· ≤ ·) (welchFreqs fs n) := by
  have hnq : (0 : ℚ) < (n : ℚ) := by exact_mod_cast hn
  rw [welchFreqs]
  refine (List.pairwise_map).mpr ?_
  refine (List.pairwise_lt_range _).imp ?_
  intro a b hab
  have hba : (a : ℚ) ≤ (b : ℚ) := by exact_mod_cast hab.le
  have hmul : (a : ℚ) * fs ≤ (b : ℚ) * fs :=
    mul_le_mul_of_nonneg_right hba hfs
  exact div_le_div_of_nonneg_right hmul hnq.le

theorem welchFreqs_head (fs : ℚ) (n : ℤ) :
    (welchFreqs fs n).head? = some 0 := by
  rw [welchFreqs, List.range_succ_eq_map]
  simp

/-- C9: for every spectrum record produced by compute_frequency_spectrum
under the scipy welch contract (a PSD of the documented one-sided length
with non-negative entries), when the time data increases overall, the
configured segment length is at least 1 and every signal is non-empty:
the record's Nyquist frequency equals sampling rate / 2, and for each
axis the frequency bins are sorted ascending, start at 0 and are as many
as the magnitude values, and every magnitude radicand psd·fs/2 is
non-negative, so every magnitude sqrt(psd·fs/2) is a well-defined value
that is at least 0. -/
theorem spectrum_record_invariants (welchPsd : List ℚ → ℚ → ℤ → ℤ → List ℚ)
    (time_data : List ℚ) (signals : List (List ℚ)) (cfg : FFTConfig)
    (s : Spectrum)
    (hw_len : ∀ sig fs n o, (welchPsd sig fs n o).length = n.toNat / 2 + 1)
    (hw_nonneg : ∀ sig fs n o, ∀ p ∈ welchPsd sig fs n o, 0 ≤ p)
    (hsum : 0 < (npDiff time_data).sum)
    (hnp : 1 ≤ cfg.nperseg)
    (hsigs : ∀ sig ∈ signals, sig ≠ [])
    (hs : compute_frequency_spectrum welchPsd time_data signals cfg = some s) :
    s.nyquist_freq = s.sampling_rate / 2 ∧
    ∀ a ∈ s.axes,
      List.Sorted (· ≤ ·) a.frequencies ∧
      a.frequencies.head? = some 0 ∧
      a.frequencies.length = a.magnitudeSq.length ∧
      ∀ m ∈ a.magnitudeSq, 0 ≤ m ∧ 0 ≤ Real.sqrt (m : ℝ) := by
  rcases Option.map_eq_some'.mp hs with ⟨fs, hfs, hrec⟩
  cases hrec
  have hfspos : 0 < fs := sampling_rate_pos hfs hsum
  refine ⟨rfl, ?_⟩
  intro a ha
  rcases List.mem_map.mp ha with ⟨sig, hsig, rfl⟩
  have hlen : (1 : ℤ) ≤ (sig.length : ℤ) := by
    have : 0 < sig.length := List.length_pos.mpr (hsigs sig hsig)
    exact_mod_cast this
  have hn : (0 : ℤ) < min cfg.nperseg (sig.length : ℤ) :=
    lt_min (lt_of_lt_of_le Int.zero_lt_one hnp)
      (lt_of_lt_of_le Int.zero_lt_one hlen)
  refine ⟨welchFreqs_sorted fs _ hfspos.le hn, welchFreqs_head fs _, ?_, ?_⟩
  · show (welchFreqs fs _).length = (List.map _ (welchPsd sig fs _ _)).length
    rw [welchFreqs_length, List.length_map, hw_len]
  · intro m hm
    rcases List.mem_map.mp hm with ⟨p, hp, rfl⟩
    have hp0 : 0 ≤ p := hw_nonneg sig fs _ _ p hp
    have hm0 : 0 ≤ p * fs / 2 :=
      div_nonneg (mul_nonneg hp0 hfspos.le) (by norm_num)
    exact ⟨hm0, Real.sqrt_nonneg _⟩

theorem spectrum_record_invariants_witness :
    (⟨2, 1, [⟨3, 2, welchFreqs 2 3, [0, 0]⟩]⟩ : Spectrum).nyquist_freq
      = (⟨2, 1, [⟨3, 2, welchFreqs 2 3, [0, 0]⟩]⟩ : Spectrum).sampling_rate / 2 :=
  (spectrum_record_invariants welchPsd0 [0, 0.5, 1] [[1, 2, 3]]
    ⟨4, 2, none⟩ _
    (fun sig fs n o => by simp [welchPsd0])
    (fun sig fs n o p hp => by
      have := List.eq_of_mem_replicate hp
      simp [this])
    (by norm_num [npDiff])
    (by norm_num)
    (by simp)
    compute_spectrum_example).1

/- ------------------------------------------------------------------ -/
/- C6: range normalizers                                               -/
/- ------------------------------------------------------------------ -/

/-- C6: containment and rules of the range normalizers.  For the
time-domain range of calculate_global_ranges, every input value lies
within the returned (min, max) bound, whose padding is 5% of the global
spread; when all values are identical the padding is 0 and the result is
exactly (c, c), with no division involved, so no NaN can arise.  For the
frequency-domain range of calculate_global_frequency_ranges, the minimum
is pinned to 0 and every masked magnitude lies within the bound, whose
maximum is the largest masked magnitude plus 5% of itself. -/
theorem global_ranges_contain
    (columns : List (List ℚ)) (spectra : List (List ℚ × List ℚ))
    (max_frequency c : ℚ)
    (hne : columns.flatten ≠ [])
    (hfne : filteredMagnitudes spectra max_frequency ≠ [])
    (hmnn : ∀ m ∈ filteredMagnitudes spectra max_frequency, 0 ≤ m) :
    (∀ v ∈ columns.flatten,
      (calculate_global_ranges_axis columns).1 ≤ v ∧
        v ≤ (calculate_global_ranges_axis columns).2) ∧
    ((∀ v ∈ columns.flatten, v = c) →
      calculate_global_ranges_axis columns = (c, c)) ∧
    (calculate_global_frequency_ranges_axis spectra max_frequency).1 = 0 ∧
    (∀ m ∈ filteredMagnitudes spectra max_frequency,
      (calculate_global_frequency_ranges_axis spectra max_frequency).1 ≤ m ∧
        m ≤ (calculate_global_frequency_ranges_axis spectra max_frequency).2) := by
  obtain ⟨w, hw⟩ := List.exists_mem_of_ne_nil _ hne
  have hminmax : seriesMin columns.flatten ≤ seriesMax columns.flatten :=
    le_trans (seriesMin_le hw) (le_seriesMax hw)
  have hpad : 0 ≤ (seriesMax columns.flatten - seriesMin columns.flatten) * 0.05 :=
    mul_nonneg (by linarith) (by norm_num)
  refine ⟨?_, ?_, rfl, ?_⟩
  · intro v hv
    have h1 := seriesMin_le hv
    have h2 := le_seriesMax hv
    constructor
    · simp only [calculate_global_ranges_axis]
      linarith
    · simp only [calculate_global_ranges_axis]
      linarith
  · intro hall
    have hmax := seriesMax_const hne hall
    have hmin := seriesMin_const hne hall
    simp only [calculate_global_ranges_axis, hmax, hmin]
    norm_num
  · intro m hm
    have h2 := le_seriesMax hm
    have h0 : 0 ≤ m := hmnn m hm
    obtain ⟨w2, hw2⟩ := List.exists_mem_of_ne_nil _ hfne
    have hmaxnn : 0 ≤ seriesMax (filteredMagnitudes spectra max_frequency) :=
      le_trans (hmnn w2 hw2) (le_seriesMax hw2)
    have hpad2 : 0 ≤ seriesMax (filteredMagnitudes spectra max_frequency) * 0.05 :=
      mul_nonneg hmaxnn (by norm_num)
    refine ⟨h0, ?_⟩
    simp only [calculate_global_frequency_ranges_axis]
    linarith

theorem global_ranges_contain_witness :
    (calculate_global_ranges_axis [[1, 2], [3]]).1 ≤ 2 ∧
      (2 : ℚ) ≤ (calculate_global_ranges_axis [[1, 2], [3]]).2 :=
  (global_ranges_contain [[1, 2], [3]] [([0, 10], [5, 7])] 10 0
    (by simp)
    (by
      have hfm : filteredMagnitudes [([0, 10], [5, 7])] (10 : ℚ) = [5, 7] := by
        norm_num [filteredMagnitudes, List.zip, List.zipWith, List.filter]
      rw [hfm]
      simp)
    (by
      intro m hm
      have hfm : filteredMagnitudes [([0, 10], [5, 7])] (10 : ℚ) = [5, 7] := by
        norm_num [filteredMagnitudes, List.zip, List.zipWith, List.filter]
      rw [hfm] at hm
      rcases List.mem_cons.mp hm with h | h
      · norm_num [h]
      · simp only [List.mem_singleton] at h
        norm_num [h])).1 2 (by norm_num)

/- ------------------------------------------------------------------ -/
/- C7: load_all_conditions failure semantics                           -/
/- ------------------------------------------------------------------ -/

/-- C7 counterexample: in a run with a valid first condition, a second
condition whose single segment file lacks the "Channel name" time
column, and a valid third condition, load_all_conditions propagates the
KeyError: the whole run aborts with the error, no dictionary is returned
at all, and the remaining condition is never processed — refuting the
claim that the failing condition is merely skipped (logged) while the
others are loaded. -/
theorem load_all_conditions_aborts_on_missing_time_column :
    load_all_conditions
        [(("Healthy"), some [goodFile]), (("10 um"), some [badFile]),
          (("45 um"), some [goodFile])]
      = Except.error ("KeyError: Channel name") ∧
    ∀ m, load_all_conditions
        [(("Healthy"), some [goodFile]), (("10 um"), some [badFile]),
          (("45 um"), some [goodFile])]
      ≠ Except.ok m := by
  refine ⟨rfl, ?_⟩
  intro m h
  rw [show load_all_conditions
        [(("Healthy"), some [goodFile]), (("10 um"), some [badFile]),
          (("45 um"), some [goodFile])]
      = Except.error ("KeyError: Channel name") from rfl] at h
  exact Except.noConfusion h

/-- C7 as amended: load_all_conditions skips (with a log entry) only a
condition whose directory does not exist, and continues; a condition
whose load raises — e.g. a segment file without the time column —
propagates its error, aborting the whole run with nothing returned and
the remaining conditions unprocessed; a condition that loads
successfully contributes its frame exactly when the frame is
non-empty. -/
theorem load_all_conditions_failure_semantics :
    (∀ (name : String) rest,
      load_all_conditions ((name, none) :: rest) = load_all_conditions rest) ∧
    (∀ (name : String) files rest e,
      load_and_concatenate_raw files = Except.error e →
      load_all_conditions ((name, some files) :: rest) = Except.error e) ∧
    (∀ (name : String) files rest df,
      load_and_concatenate_raw files = Except.ok df →
      load_all_conditions ((name, some files) :: rest)
        = (load_all_conditions rest).map
            (fun acc => if df.isEmpty then acc else (name, df) :: acc)) := by
  refine ⟨fun name rest => rfl, ?_, ?_⟩
  · intro name files rest e he
    simp only [load_all_conditions, he]
    rfl
  · intro name files rest df hdf
    simp only [load_all_conditions, hdf]
    cases hrest : load_all_conditions rest with
    | ok acc => rfl
    | error e => rfl

theorem load_all_conditions_failure_semantics_witness :
    load_all_conditions [(("10 um"), some [badFile])]
      = Except.error ("KeyError: Channel name") :=
  (load_all_conditions_failure_semantics.2.1) ("10 um") [badFile] []
    ("KeyError: Channel name") rfl
